import Mathlib

/-
  Verification of the convex-polygon library (src/main.py).

  Coordinates are embedded as rationals: the Python code coerces every
  coordinate to float and performs field arithmetic and comparisons on
  them; we idealise that arithmetic as exact rational arithmetic.
  Vertex lists are Lean lists of points; the cyclic index arithmetic
  (i + 1) % n of the source is reproduced through the accessor vtx.
-/

namespace ConvexPoly

/-- Point corresponds to the namedtuple Point(x, y) of the source. -/
structure Point where
  x : ℚ
  y : ℚ
deriving DecidableEq

/-- Default point used only to totalise list indexing; every index the
source uses is in range, so the default is never read. -/
def origin : Point := ⟨0, 0⟩

/-- Cyclic vertex access: the source writes vertices[(i + k) % n]. -/
def vtx (vs : List Point) (i : ℕ) : Point := vs.getD (i % vs.length) origin

/-- Scalar cross product of two plane vectors. -/
def cross2 (u v : ℚ × ℚ) : ℚ := u.1 * v.2 - u.2 * v.1

/-- Dot product of two plane vectors. -/
def dot2 (u v : ℚ × ℚ) : ℚ := u.1 * v.1 + u.2 * v.2

/-- Vector from p to q, as a pair. -/
def vecSub (q p : Point) : ℚ × ℚ := (q.x - p.x, q.y - p.y)

/-- Turning cross product of _is_convex: with p1 = v[i], p2 = v[(i+1)%n],
p3 = v[(i+2)%n] it computes dx1 * dy2 - dy1 * dx2 for the two edge
vectors p1 to p2 and p2 to p3. -/
def crossAt (p1 p2 p3 : Point) : ℚ :=
  (p2.x - p1.x) * (p3.y - p2.y) - (p2.y - p1.y) * (p3.x - p2.x)

/-- The list of turning cross products that the loop of _is_convex scans. -/
def turnList (vs : List Point) : List ℚ :=
  (List.range vs.length).map (fun i => crossAt (vtx vs i) (vtx vs (i + 1)) (vtx vs (i + 2)))

/-- State machine of the _is_convex loop: first_sign starts as None, a
nonzero cross either installs the sign or must match it (else return
False), and at the end the polygon is accepted iff some sign was seen. -/
def firstSignLoop : List ℚ → Option Bool → Bool
  | [], first => first.isSome
  | c :: rest, first =>
    if c ≠ 0 then
      match first with
      | none => firstSignLoop rest (some (decide (0 < c)))
      | some f => if f ≠ decide (0 < c) then false else firstSignLoop rest first
    else firstSignLoop rest first

/-- ConvexPolygon._is_convex: returns False for fewer than three
vertices, otherwise runs the sign-consistency scan over all turning
cross products. Successful construction of a ConvexPolygon is exactly
is_convex vs = true, since __init__ raises for len < 3 (also covered by
the n < 3 branch here) and raises when _is_convex returns False. -/
def is_convex (vs : List Point) : Bool :=
  if vs.length < 3 then false else firstSignLoop (turnList vs) none

/-- Signed shoelace sum of ConvexPolygon.area before the absolute value:
the cyclic sum of p1.x * p2.y - p2.x * p1.y. -/
def shoelaceSum (vs : List Point) : ℚ :=
  ((List.range vs.length).map
    (fun i => (vtx vs i).x * (vtx vs (i + 1)).y - (vtx vs (i + 1)).x * (vtx vs i).y)).sum

/-- ConvexPolygon.area: absolute shoelace sum halved. -/
def area (vs : List Point) : ℚ := |shoelaceSum vs| / 2

/-- Length of one edge, math.hypot(p2.x - p1.x, p2.y - p1.y). -/
noncomputable def edgeLen (a b : Point) : ℝ :=
  Real.sqrt (((b.x - a.x : ℚ) : ℝ) ^ 2 + ((b.y - a.y : ℚ) : ℝ) ^ 2)

/-- ConvexPolygon.perimeter: cyclic sum of Euclidean edge lengths. -/
noncomputable def perimeter (vs : List Point) : ℝ :=
  ((List.range vs.length).map (fun i => edgeLen (vtx vs i) (vtx vs (i + 1)))).sum

/-- Minimum of a rational list in the style of Python min on a nonempty
list (folds min over the list starting from its head). -/
def minList (l : List ℚ) : ℚ := l.foldl min (l.headD 0)

/-- Maximum of a rational list, Python max on a nonempty list. -/
def maxList (l : List ℚ) : ℚ := l.foldl max (l.headD 0)

/-- ConvexPolygon.bounding_box: (min_x, min_y, max_x, max_y). -/
def bounding_box (vs : List Point) : ℚ × ℚ × ℚ × ℚ :=
  (minList (vs.map Point.x), minList (vs.map Point.y),
   maxList (vs.map Point.x), maxList (vs.map Point.y))

/-- Spec wording for contains_polygon (section 4.3): the bounding box of
the second polygon fits within the bounding box of the first, i.e. each
min of the outer box is at most the corresponding min of the inner box
and each max of the inner box is at most the corresponding max of the
outer box. -/
def bbox_fits (vs ws : List Point) : Prop :=
  (bounding_box vs).1 ≤ (bounding_box ws).1 ∧
  (bounding_box vs).2.1 ≤ (bounding_box ws).2.1 ∧
  (bounding_box ws).2.2.1 ≤ (bounding_box vs).2.2.1 ∧
  (bounding_box ws).2.2.2 ≤ (bounding_box vs).2.2.2

/-- Edge-against-point cross product of contains_point: for edge a to b
and query p it computes (b.x - a.x)(p.y - a.y) - (b.y - a.y)(p.x - a.x). -/
def edgeCross (a b p : Point) : ℚ :=
  (b.x - a.x) * (p.y - a.y) - (b.y - a.y) * (p.x - a.x)

/-- The list of edge cross products that the loop of contains_point scans. -/
def edgeCrossList (vs : List Point) (p : Point) : List ℚ :=
  (List.range vs.length).map (fun i => edgeCross (vtx vs i) (vtx vs (i + 1)) p)

/-- State machine of the contains_point loop: like firstSignLoop but the
final return is True (a point with every cross zero counts as inside). -/
def signLoop : List ℚ → Option Bool → Bool
  | [], _ => true
  | c :: rest, sign =>
    if c ≠ 0 then
      match sign with
      | none => signLoop rest (some (decide (0 < c)))
      | some f => if f ≠ decide (0 < c) then false else signLoop rest sign
    else signLoop rest sign

/-- ConvexPolygon.contains_point. -/
def contains_point (vs : List Point) (p : Point) : Bool :=
  signLoop (edgeCrossList vs p) none

/-- ConvexPolygon.contains_polygon: all vertices of the other polygon
pass contains_point. -/
def contains_polygon (vs ws : List Point) : Bool :=
  ws.all (fun v => contains_point vs v)

/-- Projection of one vertex onto the axis (ax, ay). -/
def proj (ax ay : ℚ) (v : Point) : ℚ := v.x * ax + v.y * ay

/-- One step of the _project fold: if proj < min_proj update the
minimum, elif proj > max_proj update the maximum. -/
def projStep (mm : ℚ × ℚ) (pr : ℚ) : ℚ × ℚ :=
  if pr < mm.1 then (pr, mm.2) else if mm.2 < pr then (mm.1, pr) else mm

/-- ConvexPolygon._project: fold over vertices[1:] starting from the
projection of vertices[0] as both minimum and maximum. -/
def project (vs : List Point) (ax ay : ℚ) : ℚ × ℚ :=
  (vs.tail.map (proj ax ay)).foldl projStep
    (proj ax ay (vs.headD origin), proj ax ay (vs.headD origin))

/-- ConvexPolygon._sat_check: for every edge of poly1 take the
perpendicular axis, skip degenerate edges, and fail as soon as the
projections of the two polygons onto the axis are separated. The loop
carries no state, so it is the conjunction over all edges. -/
def sat_check (poly1 poly2 : List Point) : Bool :=
  (List.range poly1.length).all (fun i =>
    let a := vtx poly1 i
    let b := vtx poly1 (i + 1)
    let axx := -(b.y - a.y)
    let axy := b.x - a.x
    if axx = 0 ∧ axy = 0 then true
    else
      let m1 := project poly1 axx axy
      let m2 := project poly2 axx axy
      decide (¬(m1.2 < m2.1 ∨ m2.2 < m1.1)))

/-- ConvexPolygon.intersects: SAT in both directions, early returns
folded into a conjunction. -/
def intersects (vs ws : List Point) : Bool :=
  sat_check vs ws && sat_check ws vs

/-- ConvexPolygon.triangulation: fan triangles (v0, v_i, v_i+1) for
i from 1 to n - 2, empty below three vertices. -/
def triangulation (vs : List Point) : List (Point × Point × Point) :=
  if vs.length < 3 then []
  else (List.range (vs.length - 2)).map (fun i => (vtx vs 0, vtx vs (i + 1), vtx vs (i + 2)))

/-- Modelled from the spec: the source has no segments_intersect
function (the spec lists it among the primitives and the validator step
5 requires it, but src/main.py never defines or calls it). Following
the words of section 4.1: orientation is the tri-state sign of the
turning cross product. -/
def orientationSign (a b c : Point) : ℤ :=
  if 0 < crossAt a b c then 1 else if crossAt a b c < 0 then -1 else 0

/-- Modelled from the spec: endpoint c lies within the bounding span of
the segment from a to b (used for the collinear cases). -/
def onSpan (a b c : Point) : Bool :=
  decide (min a.x b.x ≤ c.x ∧ c.x ≤ max a.x b.x ∧ min a.y b.y ≤ c.y ∧ c.y ≤ max a.y b.y)

/-- Modelled from the spec: segments_intersect(p1,p2,p3,p4), the classic
orientation-pair test of section 4.1 - the segments intersect if the
orientation signs straddle (o1 differs from o2 and o3 differs from o4), or
an endpoint is collinear with and inside the bounding span of the other
segment. -/
def segments_intersect (p1 p2 p3 p4 : Point) : Bool :=
  let o1 := orientationSign p1 p2 p3
  let o2 := orientationSign p1 p2 p4
  let o3 := orientationSign p3 p4 p1
  let o4 := orientationSign p3 p4 p2
  (decide (o1 ≠ o2) && decide (o3 ≠ o4)) ||
  (decide (o1 = 0) && onSpan p1 p2 p3) ||
  (decide (o2 = 0) && onSpan p1 p2 p4) ||
  (decide (o3 = 0) && onSpan p3 p4 p1) ||
  (decide (o4 = 0) && onSpan p3 p4 p2)

/-! ### Cyclic sums: rotation and reversal invariance (claim C6) -/

theorem vtx_getElem (vs : List Point) (i : ℕ) (h : i < vs.length) : vtx vs i = vs[i] := by
  unfold vtx
  rw [Nat.mod_eq_of_lt h]
  exact List.getD_eq_getElem vs origin h

theorem vtx_getElem_mod (vs : List Point) (i : ℕ) (hn : 0 < vs.length) :
    vtx vs i = vs.get ⟨i % vs.length, Nat.mod_lt i hn⟩ := by
  unfold vtx
  rw [List.get_eq_getElem]
  exact List.getD_eq_getElem vs origin (Nat.mod_lt i hn)

/-- The indexed cyclic traversal of the source equals mapping over the
list zipped with its rotation by one. -/
theorem range_map_eq_zip {γ : Type} (vs : List Point) (F : Point → Point → γ) :
    (List.range vs.length).map (fun i => F (vtx vs i) (vtx vs (i + 1))) =
      (vs.zip (vs.rotate 1)).map (fun q => F q.1 q.2) := by
  apply List.ext_getElem
  · simp [List.length_zip, List.length_rotate]
  · intro i h1 h2
    simp only [List.getElem_map, List.getElem_range, List.getElem_zip]
    have hn : 0 < vs.length := by simp at h1; omega
    have hi : i < vs.length := by simpa using h1
    have hrot : i < (vs.rotate 1).length := by simpa [List.length_rotate] using hi
    rw [List.getElem_rotate]
    rw [vtx_getElem vs i hi, vtx_getElem_mod vs (i + 1) hn]
    simp only [List.get_eq_getElem]

theorem zip_rotate {γ δ : Type} (l : List γ) (m : List δ) (h : l.length = m.length) (k : ℕ) :
    (l.rotate k).zip (m.rotate k) = (l.zip m).rotate k := by
  apply List.ext_getElem
  · simp [List.length_zip, List.length_rotate, h]
  · intro i h1 h2
    have hn : 0 < l.length := by
      simp [List.length_zip, List.length_rotate, h] at h1
      omega
    have hi : i < l.length := by
      simp [List.length_zip, List.length_rotate, h] at h1
      omega
    have hzl : (l.zip m).length = l.length := by simp [List.length_zip, h]
    rw [List.getElem_zip, List.getElem_rotate, List.getElem_rotate, List.getElem_rotate,
      List.getElem_zip]
    have e1 : (i + k) % (l.zip m).length = (i + k) % l.length := by rw [hzl]
    have e2 : (i + k) % m.length = (i + k) % l.length := by rw [h]
    congr 1 <;> simp only [e1, e2]

theorem cyclicPairs_rotate (vs : List Point) (k : ℕ) :
    (vs.rotate k).zip ((vs.rotate k).rotate 1) = (vs.zip (vs.rotate 1)).rotate k := by
  rw [List.rotate_rotate, Nat.add_comm k 1, ← List.rotate_rotate]
  exact zip_rotate vs (vs.rotate 1) (by simp [List.length_rotate]) k

theorem cyclicSum_rotate {γ : Type} [AddCommMonoid γ] (vs : List Point)
    (F : Point → Point → γ) (k : ℕ) :
    ((List.range (vs.rotate k).length).map
        (fun i => F (vtx (vs.rotate k) i) (vtx (vs.rotate k) (i + 1)))).sum =
      ((List.range vs.length).map (fun i => F (vtx vs i) (vtx vs (i + 1)))).sum := by
  rw [range_map_eq_zip (vs.rotate k) F, range_map_eq_zip vs F, cyclicPairs_rotate]
  exact List.Perm.sum_eq (List.Perm.map _ (List.rotate_perm _ k))

theorem rev_index (n i : ℕ) (hi : i < n) :
    (n - 1 - (i + 1) % n + 1) % n = n - 1 - i := by
  rcases Nat.lt_or_ge (i + 1) n with h | h
  · rw [Nat.mod_eq_of_lt h]
    have h2 : n - 1 - (i + 1) + 1 = n - 1 - i := by omega
    rw [h2, Nat.mod_eq_of_lt (by omega)]
  · have h1 : i + 1 = n := by omega
    rw [h1, Nat.mod_self]
    have h2 : n - 1 - 0 + 1 = n := by omega
    rw [h2, Nat.mod_self]
    omega

theorem cyclicPairs_reverse (vs : List Point) :
    vs.reverse.zip (vs.reverse.rotate 1) =
      (((vs.zip (vs.rotate 1)).map Prod.swap).reverse).rotate 1 := by
  apply List.ext_getElem
  · simp [List.length_zip, List.length_rotate]
  · intro i h1 h2
    have hn : 0 < vs.length := by
      simp [List.length_zip, List.length_rotate] at h1; omega
    have hi : i < vs.length := by
      simp [List.length_zip, List.length_rotate] at h1; omega
    have hL : (vs.reverse.zip (vs.reverse.rotate 1))[i] =
        (vs[vs.length - 1 - i], vs[vs.length - 1 - (i + 1) % vs.length]) := by
      rw [List.getElem_zip]
      refine Prod.ext ?_ ?_
      · simp only [List.getElem_reverse]
      · simp only [List.getElem_rotate, List.getElem_reverse, List.length_reverse]
    have hR : ((((vs.zip (vs.rotate 1)).map Prod.swap).reverse).rotate 1)[i] =
        (vs.get ⟨(vs.length - 1 - (i + 1) % vs.length + 1) % vs.length, Nat.mod_lt _ hn⟩,
         vs[vs.length - 1 - (i + 1) % vs.length]) := by
      simp only [List.get_eq_getElem, List.getElem_rotate, List.getElem_reverse,
        List.getElem_map, List.getElem_zip, List.length_reverse, List.length_map,
        List.length_zip, List.length_rotate, Nat.min_self, Prod.swap_prod_mk]
    rw [hL, hR]
    refine Prod.ext ?_ ?_
    · simp only [List.get_eq_getElem]
      congr 1
      exact (rev_index vs.length i hi).symm
    · rfl

theorem sum_map_neg_q {γ : Type} (l : List γ) (g : γ → ℚ) :
    (l.map (fun a => -g a)).sum = -(l.map g).sum := by
  induction l with
  | nil => simp
  | cons x t ih =>
    simp only [List.map_cons, List.sum_cons, ih]
    ring

/-- Shoelace sum is invariant under rotation of the vertex list. -/
theorem shoelaceSum_rotate (vs : List Point) (k : ℕ) :
    shoelaceSum (vs.rotate k) = shoelaceSum vs :=
  cyclicSum_rotate vs (fun a b => a.x * b.y - b.x * a.y) k

/-- Shoelace sum changes sign under reversal of the vertex list. -/
theorem shoelaceSum_reverse (vs : List Point) :
    shoelaceSum vs.reverse = -shoelaceSum vs := by
  unfold shoelaceSum
  rw [range_map_eq_zip vs.reverse (fun a b => a.x * b.y - b.x * a.y),
    range_map_eq_zip vs (fun a b => a.x * b.y - b.x * a.y), cyclicPairs_reverse]
  rw [List.Perm.sum_eq (List.Perm.map _ (List.rotate_perm _ 1))]
  rw [List.map_reverse, List.sum_reverse, List.map_map]
  have hfun : ((fun q : Point × Point => q.1.x * q.2.y - q.2.x * q.1.y) ∘ Prod.swap) =
      fun q : Point × Point => -(q.1.x * q.2.y - q.2.x * q.1.y) := by
    funext q
    simp [Prod.swap]
  rw [hfun, sum_map_neg_q]

/-- Perimeter is invariant under rotation of the vertex list. -/
theorem perimeter_rotate (vs : List Point) (k : ℕ) :
    perimeter (vs.rotate k) = perimeter vs :=
  cyclicSum_rotate vs edgeLen k

theorem edgeLen_symm (a b : Point) : edgeLen a b = edgeLen b a := by
  unfold edgeLen
  congr 1
  push_cast
  ring

/-- Perimeter is invariant under reversal of the vertex list. -/
theorem perimeter_reverse (vs : List Point) :
    perimeter vs.reverse = perimeter vs := by
  unfold perimeter
  rw [range_map_eq_zip vs.reverse edgeLen, range_map_eq_zip vs edgeLen, cyclicPairs_reverse]
  rw [List.Perm.sum_eq (List.Perm.map _ (List.rotate_perm _ 1))]
  rw [List.map_reverse, List.sum_reverse, List.map_map]
  have hfun : ((fun q : Point × Point => edgeLen q.1 q.2) ∘ Prod.swap) =
      fun q : Point × Point => edgeLen q.1 q.2 := by
    funext q
    simp [Prod.swap, edgeLen_symm q.2 q.1]
  rw [hfun]

/-- A pentagram-style star polygon: every turning cross product is
positive, so the validator accepts it, yet it is self-intersecting and
not convex. -/
def star : List Point := [⟨0, 0⟩, ⟨5, 3⟩, ⟨-1, 3⟩, ⟨4, 0⟩, ⟨2, 5⟩]

/-- An input with a duplicated vertex that the validator accepts. -/
def dupInput : List Point := [⟨0, 0⟩, ⟨0, 0⟩, ⟨1, 0⟩, ⟨0, 1⟩]

/-- An accepted input whose shoelace sum is zero. -/
def zeroAreaInput : List Point := [⟨0, 0⟩, ⟨0, 0⟩, ⟨0, 1⟩, ⟨0, 0⟩, ⟨1, 0⟩]

/-- The demo 4x4 square of the source. -/
def square : List Point := [⟨0, 0⟩, ⟨4, 0⟩, ⟨4, 4⟩, ⟨0, 4⟩]

/-- The demo inner square of the source. -/
def innerSquare : List Point := [⟨1, 1⟩, ⟨3, 1⟩, ⟨3, 3⟩, ⟨1, 3⟩]

theorem range5 : List.range 5 = [0, 1, 2, 3, 4] := by decide

theorem range4 : List.range 4 = [0, 1, 2, 3] := by decide

theorem range3 : List.range 3 = [0, 1, 2] := by decide

/-! ### Characterisations of the sign-scanning loops -/

theorem signLoop_some_true (cs : List ℚ) :
    signLoop cs (some true) = true ↔ ∀ c ∈ cs, 0 ≤ c := by
  induction cs with
  | nil => simp [signLoop]
  | cons c rest ih =>
    by_cases hc : c = 0
    · subst hc; simpa [signLoop] using ih
    · rcases lt_or_gt_of_ne hc with hneg | hpos
      · simp [signLoop, hc, not_lt.2 hneg.le, hneg]
      · simp [signLoop, hc, hpos, hpos.le, ih]

theorem signLoop_some_false (cs : List ℚ) :
    signLoop cs (some false) = true ↔ ∀ c ∈ cs, c ≤ 0 := by
  induction cs with
  | nil => simp [signLoop]
  | cons c rest ih =>
    by_cases hc : c = 0
    · subst hc; simpa [signLoop] using ih
    · rcases lt_or_gt_of_ne hc with hneg | hpos
      · simp [signLoop, hc, not_lt.2 hneg.le, hneg.le, ih]
      · simp [signLoop, hc, hpos, not_le.2 hpos]

theorem signLoop_none (cs : List ℚ) :
    signLoop cs none = true ↔ (∀ c ∈ cs, 0 ≤ c) ∨ (∀ c ∈ cs, c ≤ 0) := by
  induction cs with
  | nil => simp [signLoop]
  | cons c rest ih =>
    by_cases hc : c = 0
    · subst hc; simp [signLoop, ih]
    · rcases lt_or_gt_of_ne hc with hneg | hpos
      · simp [signLoop, hc, not_lt.2 hneg.le, signLoop_some_false, hneg.le,
          not_le.2 hneg]
      · simp [signLoop, hc, hpos, signLoop_some_true, hpos.le, not_le.2 hpos]

theorem firstSignLoop_some (cs : List ℚ) (s : Bool) :
    firstSignLoop cs (some s) = signLoop cs (some s) := by
  induction cs generalizing s with
  | nil => simp [firstSignLoop, signLoop]
  | cons c rest ih =>
    by_cases hc : c = 0
    · simp [firstSignLoop, signLoop, hc, ih]
    · by_cases hs : s = decide (0 < c) <;> simp [firstSignLoop, signLoop, hc, hs, ih]

theorem firstSignLoop_none (cs : List ℚ) :
    firstSignLoop cs none = true ↔
      ((∀ c ∈ cs, 0 ≤ c) ∨ (∀ c ∈ cs, c ≤ 0)) ∧ ∃ c ∈ cs, c ≠ 0 := by
  induction cs with
  | nil => simp [firstSignLoop]
  | cons c rest ih =>
    by_cases hc : c = 0
    · subst hc; simp [firstSignLoop, ih]
    · rcases lt_or_gt_of_ne hc with hneg | hpos
      · simp [firstSignLoop, hc, not_lt.2 hneg.le, firstSignLoop_some,
          signLoop_some_false, hneg.le, not_le.2 hneg]
      · simp [firstSignLoop, hc, hpos, firstSignLoop_some, signLoop_some_true,
          hpos.le, not_le.2 hpos]

/-- Successful construction characterised: at least three vertices, the
turning cross products all share one weak sign, and at least one of
them is nonzero. -/
theorem is_convex_iff (vs : List Point) :
    is_convex vs = true ↔ 3 ≤ vs.length ∧
      ((∀ c ∈ turnList vs, 0 ≤ c) ∨ (∀ c ∈ turnList vs, c ≤ 0)) ∧
      ∃ c ∈ turnList vs, c ≠ 0 := by
  unfold is_convex
  by_cases h3 : vs.length < 3
  · simp only [h3, if_true, Bool.false_eq_true, false_iff]
    intro h; omega
  · simp only [h3, if_false, firstSignLoop_none]
    have hlen : 3 ≤ vs.length := by omega
    tauto

/-- Acceptance of contains_point characterised: all the edge cross
products share one weak sign. -/
theorem contains_point_iff (vs : List Point) (p : Point) :
    contains_point vs p = true ↔
      (∀ c ∈ edgeCrossList vs p, 0 ≤ c) ∨ (∀ c ∈ edgeCrossList vs p, c ≤ 0) := by
  unfold contains_point
  exact signLoop_none _

/-! ### The angular-monotonicity engine

For vectors that all lie in the open half-plane where the linear form
given by d is negative, the relation 0 ≤ cross2 u v is transitive. A
cyclic chain of such comparisons therefore collapses: all consecutive
cross products vanish and the vectors are pairwise collinear. -/

theorem cross2_self (u : ℚ × ℚ) : cross2 u u = 0 := by
  simp [cross2, mul_comm]

theorem cross2_antisymm (u v : ℚ × ℚ) : cross2 u v = -cross2 v u := by
  simp [cross2]; ring

theorem cross2_dot_identity (d u v w : ℚ × ℚ) :
    cross2 u v * dot2 d w + cross2 v w * dot2 d u + cross2 w u * dot2 d v = 0 := by
  simp [cross2, dot2]; ring

theorem cross2_trans (d u v w : ℚ × ℚ)
    (hdu : dot2 d u < 0) (hdv : dot2 d v < 0) (hdw : dot2 d w < 0)
    (h1 : 0 ≤ cross2 u v) (h2 : 0 ≤ cross2 v w) : 0 ≤ cross2 u w := by
  have hid := cross2_dot_identity d u v w
  have ht1 : cross2 u v * dot2 d w ≤ 0 := mul_nonpos_of_nonneg_of_nonpos h1 hdw.le
  have ht2 : cross2 v w * dot2 d u ≤ 0 := mul_nonpos_of_nonneg_of_nonpos h2 hdu.le
  have h3 : 0 ≤ cross2 w u * dot2 d v := by linarith
  have h4 : cross2 w u ≤ 0 := by
    by_contra hpos
    push_neg at hpos
    have := mul_neg_of_pos_of_neg hpos hdv
    linarith
  have h5 : cross2 u w = -cross2 w u := cross2_antisymm u w
  linarith

theorem cross2_trans_strict (d u v w : ℚ × ℚ)
    (hdu : dot2 d u < 0) (hdv : dot2 d v < 0) (hdw : dot2 d w < 0)
    (h1 : 0 < cross2 u v) (h2 : 0 ≤ cross2 v w) : 0 < cross2 u w := by
  have hid := cross2_dot_identity d u v w
  have ht1 : cross2 u v * dot2 d w < 0 := mul_neg_of_pos_of_neg h1 hdw
  have ht2 : cross2 v w * dot2 d u ≤ 0 := mul_nonpos_of_nonneg_of_nonpos h2 hdu.le
  have h3 : 0 < cross2 w u * dot2 d v := by linarith
  have h4 : cross2 w u < 0 := by
    by_contra hpos
    push_neg at hpos
    have := mul_nonpos_of_nonneg_of_nonpos hpos hdv.le
    linarith
  have h5 : cross2 u w = -cross2 w u := cross2_antisymm u w
  linarith

theorem cross2_collinear_trans (u v w : ℚ × ℚ) (hv : v ≠ 0)
    (h1 : cross2 u v = 0) (h2 : cross2 v w = 0) : cross2 u w = 0 := by
  have e1 : cross2 u w * v.1 = cross2 u v * w.1 + cross2 v w * u.1 := by
    simp [cross2]; ring
  have e2 : cross2 u w * v.2 = cross2 u v * w.2 + cross2 v w * u.2 := by
    simp [cross2]; ring
  rw [h1, h2] at e1 e2
  simp only [zero_mul, add_zero] at e1 e2
  rcases mul_eq_zero.1 e1 with h | h
  · exact h
  · rcases mul_eq_zero.1 e2 with h2a | h2a
    · exact h2a
    · exact absurd (Prod.ext h h2a) hv

section Engine

variable (f : ℕ → ℚ × ℚ) (d : ℚ × ℚ) (n : ℕ)

theorem chain_weak (hd : ∀ i, dot2 d (f i) < 0)
    (hc : ∀ i, 0 ≤ cross2 (f i) (f (i + 1))) :
    ∀ k i, 0 ≤ cross2 (f i) (f (i + k)) := by
  intro k
  induction k with
  | zero => intro i; simp [cross2_self]
  | succ m ih =>
    intro i
    have h1 := ih i
    have h2 := hc (i + m)
    exact cross2_trans d _ _ _ (hd i) (hd (i + m)) (hd (i + m + 1)) h1 h2

theorem consec_cross_zero (hn : 0 < n)
    (hper : ∀ i, f (i + n) = f i)
    (hd : ∀ i, dot2 d (f i) < 0)
    (hc : ∀ i, 0 ≤ cross2 (f i) (f (i + 1))) :
    ∀ i, cross2 (f i) (f (i + 1)) = 0 := by
  intro i
  rcases (hc i).lt_or_eq with hstrict | heq
  · exfalso
    have hchain := chain_weak f d hd hc (n - 1) (i + 1)
    have harith : i + 1 + (n - 1) = i + n := by omega
    rw [harith, hper i] at hchain
    have := cross2_trans_strict d (f i) (f (i + 1)) (f i)
      (hd i) (hd (i + 1)) (hd i) hstrict hchain
    rw [cross2_self] at this
    exact lt_irrefl 0 this
  · exact heq.symm

theorem pairwise_cross_zero (hn : 0 < n)
    (hper : ∀ i, f (i + n) = f i)
    (hd : ∀ i, dot2 d (f i) < 0)
    (hc : ∀ i, 0 ≤ cross2 (f i) (f (i + 1))) :
    ∀ i j, cross2 (f i) (f j) = 0 := by
  have hzero := consec_cross_zero f d n hn hper hd hc
  have hne : ∀ i, f i ≠ 0 := by
    intro i hzero2
    have := hd i
    rw [hzero2] at this
    simp [dot2] at this
  have hstep : ∀ k i, cross2 (f i) (f (i + k)) = 0 := by
    intro k
    induction k with
    | zero => intro i; simp [cross2_self]
    | succ m ih =>
      intro i
      exact cross2_collinear_trans _ _ _ (hne (i + m)) (ih i) (hzero (i + m))
  intro i j
  rcases le_total i j with h | h
  · have : j = i + (j - i) := by omega
    rw [this]; exact hstep (j - i) i
  · have : i = j + (i - j) := by omega
    rw [cross2_antisymm, this, hstep (i - j) j, neg_zero]

end Engine

theorem pairwise_of_signs (f : ℕ → ℚ × ℚ) (d : ℚ × ℚ) (n : ℕ) (hn : 0 < n)
    (hper : ∀ i, f (i + n) = f i)
    (hd : ∀ i, dot2 d (f i) < 0)
    (hc : (∀ i, 0 ≤ cross2 (f i) (f (i + 1))) ∨ (∀ i, cross2 (f i) (f (i + 1)) ≤ 0)) :
    ∀ i j, cross2 (f i) (f j) = 0 := by
  rcases hc with hc | hc
  · exact pairwise_cross_zero f d n hn hper hd hc
  · set g : ℕ → ℚ × ℚ := fun i => ((f i).1, -(f i).2) with hg
    have hperg : ∀ i, g (i + n) = g i := by intro i; simp [hg, hper i]
    have hdg : ∀ i, dot2 (d.1, -d.2) (g i) < 0 := by
      intro i
      have := hd i
      simp only [hg, dot2] at this ⊢
      linarith [this]
    have hcg : ∀ i, 0 ≤ cross2 (g i) (g (i + 1)) := by
      intro i
      have := hc i
      simp only [hg, cross2] at this ⊢
      linarith [this]
    have hall := pairwise_cross_zero g (d.1, -d.2) n hn hperg hdg hcg
    intro i j
    have h2 := hall i j
    simp only [hg, cross2] at h2 ⊢
    linarith [h2]

/-! ### Cyclic-index helpers for vtx -/

theorem vtx_mod_add (vs : List Point) (i k : ℕ) :
    vtx vs (i % vs.length + k) = vtx vs (i + k) := by
  simp [vtx, Nat.mod_add_mod]

theorem vtx_mod (vs : List Point) (i : ℕ) :
    vtx vs (i % vs.length) = vtx vs i := by
  simpa using vtx_mod_add vs i 0

theorem vtx_mem (vs : List Point) (hn : 0 < vs.length) (i : ℕ) : vtx vs i ∈ vs := by
  have hlt : i % vs.length < vs.length := Nat.mod_lt _ hn
  unfold vtx
  rw [List.getD_eq_getElem vs origin hlt]
  exact List.getElem_mem hlt

/-! ### Algebraic bridges between the source formulas and cross2 -/

theorem edgeCross_eq_cross2 (a b p : Point) :
    edgeCross a b p = cross2 (vecSub a p) (vecSub b p) := by
  simp [edgeCross, cross2, vecSub]; ring

theorem crossAt_expand (a b c p : Point) :
    crossAt a b c =
      cross2 (vecSub a p) (vecSub b p) + cross2 (vecSub b p) (vecSub c p) +
        cross2 (vecSub c p) (vecSub a p) := by
  simp [crossAt, cross2, vecSub]; ring

theorem dot2_vecSub_proj (ax ay : ℚ) (v p : Point) :
    dot2 (ax, ay) (vecSub v p) = proj ax ay v - proj ax ay p := by
  simp [dot2, vecSub, proj]; ring

/-- Core support bound: any point accepted by contains_point of an
accepted polygon projects, along every direction, no further than some
vertex of the polygon does. -/
theorem support_bound (vs : List Point) (hacc : is_convex vs = true) (p : Point)
    (hcp : contains_point vs p = true) (ax ay : ℚ) :
    ∃ v ∈ vs, proj ax ay p ≤ proj ax ay v := by
  by_contra hno
  push_neg at hno
  obtain ⟨hlen, _hsign, hex⟩ := (is_convex_iff vs).1 hacc
  have hn : 0 < vs.length := by omega
  set f : ℕ → ℚ × ℚ := fun i => vecSub (vtx vs i) p with hf
  have hper : ∀ i, f (i + vs.length) = f i := by
    intro i; simp [hf, vtx, Nat.add_mod_right]
  have hd : ∀ i, dot2 (ax, ay) (f i) < 0 := by
    intro i
    have hv := hno _ (vtx_mem vs hn i)
    simp only [hf]
    rw [dot2_vecSub_proj]
    linarith
  have helt : ∀ i : ℕ, edgeCross (vtx vs i) (vtx vs (i + 1)) p ∈ edgeCrossList vs p := by
    intro i
    have hlt : i % vs.length < vs.length := Nat.mod_lt _ hn
    have hmem : edgeCross (vtx vs (i % vs.length)) (vtx vs (i % vs.length + 1)) p ∈
        edgeCrossList vs p := by
      unfold edgeCrossList
      exact List.mem_map.2 ⟨i % vs.length, List.mem_range.2 hlt, rfl⟩
    rwa [vtx_mod, vtx_mod_add] at hmem
  have hconsec : (∀ i, 0 ≤ cross2 (f i) (f (i + 1))) ∨
      (∀ i, cross2 (f i) (f (i + 1)) ≤ 0) := by
    rcases (contains_point_iff vs p).1 hcp with hall | hall
    · refine Or.inl fun i => ?_
      have := hall _ (helt i)
      rwa [edgeCross_eq_cross2] at this
    · refine Or.inr fun i => ?_
      have := hall _ (helt i)
      rwa [edgeCross_eq_cross2] at this
  have hpair := pairwise_of_signs f (ax, ay) vs.length hn hper hd hconsec
  obtain ⟨c, hcmem, hcne⟩ := hex
  unfold turnList at hcmem
  obtain ⟨i, _hi, hceq⟩ := List.mem_map.1 hcmem
  apply hcne
  rw [← hceq, crossAt_expand _ _ _ p]
  have e1 := hpair i (i + 1)
  have e2 := hpair (i + 1) (i + 2)
  have e3 := hpair (i + 2) i
  simp only [hf] at e1 e2 e3
  rw [e1, e2, e3]
  ring

/-! ### Fold lemmas for min, max and _project -/

theorem le_foldl_max_init : ∀ (l : List ℚ) (a : ℚ), a ≤ l.foldl max a := by
  intro l
  induction l with
  | nil => intro a; simp
  | cons x t ih =>
    intro a
    calc a ≤ max a x := le_max_left a x
    _ ≤ t.foldl max (max a x) := ih (max a x)

theorem le_foldl_max_mem : ∀ (l : List ℚ) (a x : ℚ), x ∈ l → x ≤ l.foldl max a := by
  intro l
  induction l with
  | nil => intro a x hx; simp at hx
  | cons y t ih =>
    intro a x hx
    rcases List.mem_cons.1 hx with h | h
    · subst h
      calc x ≤ max a x := le_max_right a x
      _ ≤ t.foldl max (max a x) := le_foldl_max_init t (max a x)
    · exact ih (max a y) x h

theorem foldl_max_le : ∀ (l : List ℚ) (a c : ℚ), a ≤ c → (∀ x ∈ l, x ≤ c) →
    l.foldl max a ≤ c := by
  intro l
  induction l with
  | nil => intro a c ha _; simpa using ha
  | cons y t ih =>
    intro a c ha hall
    exact ih (max a y) c (max_le ha (hall y (by simp))) fun x hx => hall x (by simp [hx])

theorem foldl_min_init_le : ∀ (l : List ℚ) (a : ℚ), l.foldl min a ≤ a := by
  intro l
  induction l with
  | nil => intro a; simp
  | cons x t ih =>
    intro a
    calc t.foldl min (min a x) ≤ min a x := ih (min a x)
    _ ≤ a := min_le_left a x

theorem foldl_min_le_mem : ∀ (l : List ℚ) (a x : ℚ), x ∈ l → l.foldl min a ≤ x := by
  intro l
  induction l with
  | nil => intro a x hx; simp at hx
  | cons y t ih =>
    intro a x hx
    rcases List.mem_cons.1 hx with h | h
    · subst h
      calc t.foldl min (min a x) ≤ min a x := foldl_min_init_le t (min a x)
      _ ≤ x := min_le_right a x
    · exact ih (min a y) x h

theorem le_foldl_min : ∀ (l : List ℚ) (a c : ℚ), c ≤ a → (∀ x ∈ l, c ≤ x) →
    c ≤ l.foldl min a := by
  intro l
  induction l with
  | nil => intro a c ha _; simpa using ha
  | cons y t ih =>
    intro a c ha hall
    exact ih (min a y) c (le_min ha (hall y (by simp))) fun x hx => hall x (by simp [hx])

theorem projStep_eq (a : ℚ × ℚ) (x : ℚ) (h : a.1 ≤ a.2) :
    projStep a x = (min a.1 x, max a.2 x) := by
  unfold projStep
  split_ifs with h1 h2
  · rw [min_eq_right h1.le, max_eq_left (h1.le.trans h)]
  · rw [min_eq_left (not_lt.1 h1), max_eq_right h2.le]
  · rw [min_eq_left (not_lt.1 h1), max_eq_left (not_lt.1 h2)]

theorem foldl_projStep_eq : ∀ (l : List ℚ) (a : ℚ × ℚ), a.1 ≤ a.2 →
    l.foldl projStep a = (l.foldl min a.1, l.foldl max a.2) := by
  intro l
  induction l with
  | nil => intro a _; simp
  | cons x t ih =>
    intro a ha
    have hstep := projStep_eq a x ha
    have hord : min a.1 x ≤ max a.2 x :=
      le_trans (min_le_left a.1 x) (le_trans ha (le_max_left a.2 x))
    calc (x :: t).foldl projStep a = t.foldl projStep (projStep a x) := rfl
    _ = t.foldl projStep (min a.1 x, max a.2 x) := by rw [hstep]
    _ = (t.foldl min (min a.1 x), t.foldl max (max a.2 x)) := ih _ hord

theorem project_cons (v : Point) (t : List Point) (ax ay : ℚ) :
    project (v :: t) ax ay =
      ((t.map (proj ax ay)).foldl min (proj ax ay v),
       (t.map (proj ax ay)).foldl max (proj ax ay v)) := by
  unfold project
  simp only [List.tail_cons, List.headD_cons]
  exact foldl_projStep_eq _ _ (le_refl _)

theorem project_fst_le_snd (v : Point) (t : List Point) (ax ay : ℚ) :
    (project (v :: t) ax ay).1 ≤ (project (v :: t) ax ay).2 := by
  rw [project_cons]
  exact le_trans (foldl_min_init_le _ _) (le_foldl_max_init _ _)

theorem project_le_of_mem (v : Point) (t : List Point) (ax ay : ℚ) (w : Point)
    (hw : w ∈ v :: t) :
    (project (v :: t) ax ay).1 ≤ proj ax ay w ∧
      proj ax ay w ≤ (project (v :: t) ax ay).2 := by
  rw [project_cons]
  rcases List.mem_cons.1 hw with h | h
  · subst h
    exact ⟨foldl_min_init_le _ _, le_foldl_max_init _ _⟩
  · exact ⟨foldl_min_le_mem _ _ _ (List.mem_map_of_mem _ h),
      le_foldl_max_mem _ _ _ (List.mem_map_of_mem _ h)⟩

theorem project_bounds_of_all (v : Point) (t : List Point) (ax ay : ℚ) (lo hi : ℚ)
    (h : ∀ w ∈ v :: t, lo ≤ proj ax ay w ∧ proj ax ay w ≤ hi) :
    lo ≤ (project (v :: t) ax ay).1 ∧ (project (v :: t) ax ay).2 ≤ hi := by
  rw [project_cons]
  constructor
  · refine le_foldl_min _ _ _ (h v (by simp)).1 fun x hx => ?_
    obtain ⟨w, hw, rfl⟩ := List.mem_map.1 hx
    exact (h w (by simp [hw])).1
  · refine foldl_max_le _ _ _ (h v (by simp)).2 fun x hx => ?_
    obtain ⟨w, hw, rfl⟩ := List.mem_map.1 hx
    exact (h w (by simp [hw])).2

theorem proj_neg (ax ay : ℚ) (v : Point) : proj (-ax) (-ay) v = -proj ax ay v := by
  simp [proj]; ring

/-- Projections of a contained polygon lie inside the projection range of
the containing polygon, on every axis. -/
theorem proj_range_of_contained (A : List Point) (hA : is_convex A = true)
    (a0 : Point) (At : List Point) (hAeq : A = a0 :: At)
    (B : List Point) (hcontain : ∀ b ∈ B, contains_point A b = true)
    (ax ay : ℚ) :
    ∀ b ∈ B, (project A ax ay).1 ≤ proj ax ay b ∧
      proj ax ay b ≤ (project A ax ay).2 := by
  intro b hb
  constructor
  · obtain ⟨v, hv, hle⟩ := support_bound A hA b (hcontain b hb) (-ax) (-ay)
    rw [proj_neg, proj_neg] at hle
    have h1 : proj ax ay v ≤ proj ax ay b := by linarith
    have h2 := (project_le_of_mem a0 At ax ay v (hAeq ▸ hv)).1
    rw [← hAeq] at h2
    exact le_trans h2 h1
  · obtain ⟨v, hv, hle⟩ := support_bound A hA b (hcontain b hb) ax ay
    have h2 := (project_le_of_mem a0 At ax ay v (hAeq ▸ hv)).2
    rw [← hAeq] at h2
    exact le_trans hle h2

theorem sat_check_of_contained (A B : List Point) (hA : is_convex A = true)
    (hB0 : B ≠ []) (hcontain : ∀ b ∈ B, contains_point A b = true) :
    sat_check A B = true ∧ sat_check B A = true := by
  obtain ⟨hlenA, -, -⟩ := (is_convex_iff A).1 hA
  obtain ⟨a0, At, hAeq⟩ : ∃ a0 At, A = a0 :: At := by
    cases A with
    | nil => simp at hlenA
    | cons a0 At => exact ⟨a0, At, rfl⟩
  obtain ⟨b0, Bt, hBeq⟩ : ∃ b0 Bt, B = b0 :: Bt := by
    cases B with
    | nil => simp at hB0
    | cons b0 Bt => exact ⟨b0, Bt, rfl⟩
  have key : ∀ ax ay : ℚ,
      (project A ax ay).1 ≤ (project B ax ay).1 ∧
      (project B ax ay).2 ≤ (project A ax ay).2 ∧
      (project A ax ay).1 ≤ (project A ax ay).2 ∧
      (project B ax ay).1 ≤ (project B ax ay).2 := by
    intro ax ay
    have hrange := proj_range_of_contained A hA a0 At hAeq B hcontain ax ay
    have hb := project_bounds_of_all b0 Bt ax ay (project A ax ay).1 (project A ax ay).2
      (by rw [← hBeq]; exact hrange)
    rw [← hBeq] at hb
    refine ⟨hb.1, hb.2, ?_, ?_⟩
    · rw [hAeq]; exact project_fst_le_snd a0 At ax ay
    · rw [hBeq]; exact project_fst_le_snd b0 Bt ax ay
  constructor
  · unfold sat_check
    rw [List.all_eq_true]
    intro i _
    dsimp only
    split_ifs with h
    · rfl
    · rw [decide_eq_true_iff]
      obtain ⟨k1, k2, k3, k4⟩ := key (-((vtx A (i + 1)).y - (vtx A i).y))
        ((vtx A (i + 1)).x - (vtx A i).x)
      rintro (hsep | hsep) <;> linarith
  · unfold sat_check
    rw [List.all_eq_true]
    intro i _
    dsimp only
    split_ifs with h
    · rfl
    · rw [decide_eq_true_iff]
      obtain ⟨k1, k2, k3, k4⟩ := key (-((vtx B (i + 1)).y - (vtx B i).y))
        ((vtx B (i + 1)).x - (vtx B i).x)
      rintro (hsep | hsep) <;> linarith

theorem minList_le_mem (l : List ℚ) (x : ℚ) (hx : x ∈ l) : minList l ≤ x :=
  foldl_min_le_mem l (l.headD 0) x hx

theorem maxList_ge_mem (l : List ℚ) (x : ℚ) (hx : x ∈ l) : x ≤ maxList l :=
  le_foldl_max_mem l (l.headD 0) x hx

theorem minList_ge (x : ℚ) (t : List ℚ) (c : ℚ) (h : ∀ q ∈ x :: t, c ≤ q) :
    c ≤ minList (x :: t) := by
  unfold minList
  simp only [List.headD_cons]
  exact le_foldl_min (x :: t) x c (h x (by simp)) h

theorem maxList_le (x : ℚ) (t : List ℚ) (c : ℚ) (h : ∀ q ∈ x :: t, q ≤ c) :
    maxList (x :: t) ≤ c := by
  unfold maxList
  simp only [List.headD_cons]
  exact foldl_max_le (x :: t) x c (h x (by simp)) h

/-- A point accepted by contains_point of an accepted polygon has both
coordinates within the coordinate ranges of the polygon vertices. -/
theorem contained_coord_bounds (A : List Point) (hA : is_convex A = true)
    (b : Point) (hb : contains_point A b = true) :
    (minList (A.map Point.x) ≤ b.x ∧ b.x ≤ maxList (A.map Point.x)) ∧
    (minList (A.map Point.y) ≤ b.y ∧ b.y ≤ maxList (A.map Point.y)) := by
  refine ⟨⟨?_, ?_⟩, ?_, ?_⟩
  · obtain ⟨v, hv, hle⟩ := support_bound A hA b hb (-1) 0
    have h1 : v.x ≤ b.x := by simp [proj] at hle; linarith
    exact le_trans (minList_le_mem _ _ (List.mem_map_of_mem Point.x hv)) h1
  · obtain ⟨v, hv, hle⟩ := support_bound A hA b hb 1 0
    have h1 : b.x ≤ v.x := by simp [proj] at hle; linarith
    exact le_trans h1 (maxList_ge_mem _ _ (List.mem_map_of_mem Point.x hv))
  · obtain ⟨v, hv, hle⟩ := support_bound A hA b hb 0 (-1)
    have h1 : v.y ≤ b.y := by simp [proj] at hle; linarith
    exact le_trans (minList_le_mem _ _ (List.mem_map_of_mem Point.y hv)) h1
  · obtain ⟨v, hv, hle⟩ := support_bound A hA b hb 0 1
    have h1 : b.y ≤ v.y := by simp [proj] at hle; linarith
    exact le_trans h1 (maxList_ge_mem _ _ (List.mem_map_of_mem Point.y hv))

/-! ### Claim theorems C3, C4, C5 -/

/-- C3: for all successfully constructed ConvexPolygons A and B, if
A.contains_polygon(B) returns true then A.intersects(B) returns true:
vertex containment leaves no separating axis for the SAT test, in
either direction. -/
theorem claim_C3_contains_polygon_implies_intersects (A B : List Point)
    (hA : is_convex A = true) (hB : is_convex B = true)
    (hAB : contains_polygon A B = true) : intersects A B = true := by
  have hcontain : ∀ b ∈ B, contains_point A b = true := by
    unfold contains_polygon at hAB
    rw [List.all_eq_true] at hAB
    exact hAB
  have hB0 : B ≠ [] := by
    obtain ⟨hlenB, -, -⟩ := (is_convex_iff B).1 hB
    intro h
    rw [h] at hlenB
    simp at hlenB
  obtain ⟨h1, h2⟩ := sat_check_of_contained A B hA hB0 hcontain
  unfold intersects
  rw [h1, h2]
  rfl

/-- Witness for C3 at the demo squares of the source. -/
theorem claim_C3_witness :
    is_convex square = true ∧ is_convex innerSquare = true ∧
    contains_polygon square innerSquare = true ∧
    intersects square innerSquare = true := by
  have h1 : is_convex square = true := by
    norm_num [is_convex, square, turnList, vtx, crossAt, firstSignLoop, range4, List.getD]
  have h2 : is_convex innerSquare = true := by
    norm_num [is_convex, innerSquare, turnList, vtx, crossAt, firstSignLoop, range4, List.getD]
  have h3 : contains_polygon square innerSquare = true := by
    norm_num [contains_polygon, contains_point, square, innerSquare, edgeCrossList, edgeCross,
      vtx, signLoop, range4, List.getD, List.all]
  exact ⟨h1, h2, h3, claim_C3_contains_polygon_implies_intersects square innerSquare h1 h2 h3⟩

/-- C4: for all successfully constructed ConvexPolygons A and B,
A.intersects(B) returns the same boolean as B.intersects(A): the two
SAT passes are the same two conjuncts in either order. -/
theorem claim_C4_intersects_symm (A B : List Point)
    (_hA : is_convex A = true) (_hB : is_convex B = true) :
    intersects A B = intersects B A := by
  unfold intersects
  exact Bool.and_comm _ _

/-- Witness for C4 at the demo squares of the source. -/
theorem claim_C4_witness :
    is_convex square = true ∧ is_convex innerSquare = true ∧
    intersects square innerSquare = intersects innerSquare square := by
  have h1 : is_convex square = true := by
    norm_num [is_convex, square, turnList, vtx, crossAt, firstSignLoop, range4, List.getD]
  have h2 : is_convex innerSquare = true := by
    norm_num [is_convex, innerSquare, turnList, vtx, crossAt, firstSignLoop, range4, List.getD]
  exact ⟨h1, h2, claim_C4_intersects_symm square innerSquare h1 h2⟩

/-- C5: for all successfully constructed ConvexPolygons, contains_polygon
returns true iff the bounding box of the other polygon fits within this
polygon's bounding box and every vertex of the other passes
contains_point. The code checks only the vertices; the bounding box
clause is implied because contained vertices stay within the coordinate
ranges of the containing polygon. -/
theorem claim_C5_contains_polygon_iff (A B : List Point)
    (hA : is_convex A = true) (hB : is_convex B = true) :
    contains_polygon A B = true ↔
      bbox_fits A B ∧ ∀ v ∈ B, contains_point A v = true := by
  constructor
  · intro h
    have hvert : ∀ v ∈ B, contains_point A v = true := by
      unfold contains_polygon at h
      rw [List.all_eq_true] at h
      exact h
    refine ⟨?_, hvert⟩
    obtain ⟨hlenB, -, -⟩ := (is_convex_iff B).1 hB
    obtain ⟨b0, Bt, rfl⟩ : ∃ b0 Bt, B = b0 :: Bt := by
      cases B with
      | nil => simp at hlenB
      | cons b0 Bt => exact ⟨b0, Bt, rfl⟩
    have hbounds : ∀ b ∈ b0 :: Bt,
        (minList (A.map Point.x) ≤ b.x ∧ b.x ≤ maxList (A.map Point.x)) ∧
        (minList (A.map Point.y) ≤ b.y ∧ b.y ≤ maxList (A.map Point.y)) :=
      fun b hb => contained_coord_bounds A hA b (hvert b hb)
    unfold bbox_fits bounding_box
    simp only [List.map_cons]
    refine ⟨?_, ?_, ?_, ?_⟩
    · refine minList_ge _ _ _ fun q hq => ?_
      rcases List.mem_cons.1 hq with h | h
      · subst h; exact ((hbounds b0 (by simp)).1).1
      · obtain ⟨b, hbm, rfl⟩ := List.mem_map.1 h
        exact ((hbounds b (by simp [hbm])).1).1
    · refine minList_ge _ _ _ fun q hq => ?_
      rcases List.mem_cons.1 hq with h | h
      · subst h; exact ((hbounds b0 (by simp)).2).1
      · obtain ⟨b, hbm, rfl⟩ := List.mem_map.1 h
        exact ((hbounds b (by simp [hbm])).2).1
    · refine maxList_le _ _ _ fun q hq => ?_
      rcases List.mem_cons.1 hq with h | h
      · subst h; exact ((hbounds b0 (by simp)).1).2
      · obtain ⟨b, hbm, rfl⟩ := List.mem_map.1 h
        exact ((hbounds b (by simp [hbm])).1).2
    · refine maxList_le _ _ _ fun q hq => ?_
      rcases List.mem_cons.1 hq with h | h
      · subst h; exact ((hbounds b0 (by simp)).2).2
      · obtain ⟨b, hbm, rfl⟩ := List.mem_map.1 h
        exact ((hbounds b (by simp [hbm])).2).2
  · rintro ⟨-, hvert⟩
    unfold contains_polygon
    rw [List.all_eq_true]
    exact hvert

/-- Witness for C5 at the demo squares of the source. -/
theorem claim_C5_witness :
    is_convex square = true ∧ is_convex innerSquare = true ∧
    (contains_polygon square innerSquare = true ↔
      bbox_fits square innerSquare ∧
        ∀ v ∈ innerSquare, contains_point square v = true) := by
  have h1 : is_convex square = true := by
    norm_num [is_convex, square, turnList, vtx, crossAt, firstSignLoop, range4, List.getD]
  have h2 : is_convex innerSquare = true := by
    norm_num [is_convex, innerSquare, turnList, vtx, crossAt, firstSignLoop, range4, List.getD]
  exact ⟨h1, h2, claim_C5_contains_polygon_iff square innerSquare h1 h2⟩

/-! ### Claim theorems C6, C1, C2, C7, C8, C9, C10 -/

/-- C6: for every successfully constructed ConvexPolygon the values of
area and perimeter are unchanged when the polygon is constructed from
any cyclic rotation of the same vertex list, and also when it is
constructed from the reversed vertex list (area in absolute value,
which is what the public area returns). -/
theorem claim_C6_area_perimeter_invariant (vs : List Point)
    (_h : is_convex vs = true) (k : ℕ) :
    area (vs.rotate k) = area vs ∧ perimeter (vs.rotate k) = perimeter vs ∧
    area vs.reverse = area vs ∧ perimeter vs.reverse = perimeter vs := by
  refine ⟨?_, perimeter_rotate vs k, ?_, perimeter_reverse vs⟩
  · unfold area
    rw [shoelaceSum_rotate]
  · unfold area
    rw [shoelaceSum_reverse, abs_neg]

/-- Witness for C6 at the demo square with rotation by one. -/
theorem claim_C6_witness :
    is_convex square = true ∧
    (area (square.rotate 1) = area square ∧
     perimeter (square.rotate 1) = perimeter square ∧
     area square.reverse = area square ∧
     perimeter square.reverse = perimeter square) := by
  have h1 : is_convex square = true := by
    norm_num [is_convex, square, turnList, vtx, crossAt, firstSignLoop, range4, List.getD]
  exact ⟨h1, claim_C6_area_perimeter_invariant square h1 1⟩

/-- C1: the claim says every self-intersecting input is rejected, but
the validator accepts the star polygon: all five turning cross products
are positive, yet its non-adjacent edges 0 (from vertex 0 to vertex 1)
and 2 (from vertex 2 to vertex 3) cross each other, as the
spec-modelled segments_intersect test certifies. -/
theorem claim_C1_star_accepted_despite_self_intersection :
    is_convex star = true ∧ star.length = 5 ∧
    segments_intersect (vtx star 0) (vtx star 1) (vtx star 2) (vtx star 3) = true := by
  refine ⟨?_, by norm_num [star], ?_⟩
  · norm_num [is_convex, star, turnList, vtx, crossAt, firstSignLoop, range5, List.getD]
  · norm_num [segments_intersect, orientationSign, onSpan, crossAt, star, vtx, List.getD]

/-- C2: the claim says inputs with exactly coinciding points are
rejected, but the validator accepts dupInput whose first two vertices
coincide exactly. -/
theorem claim_C2_duplicate_vertices_accepted :
    is_convex dupInput = true ∧ vtx dupInput 0 = vtx dupInput 1 := by
  constructor
  · norm_num [is_convex, dupInput, turnList, vtx, crossAt, firstSignLoop, range4, List.getD]
  · norm_num [dupInput, vtx, List.getD]

/-- C7: the claim says area is strictly positive for every successfully
constructed polygon, but zeroAreaInput is accepted by the validator and
its area is exactly zero. -/
theorem claim_C7_zero_area_polygon_constructed :
    is_convex zeroAreaInput = true ∧ area zeroAreaInput = 0 := by
  constructor
  · norm_num [is_convex, zeroAreaInput, turnList, vtx, crossAt, firstSignLoop, range5,
      List.getD]
  · norm_num [area, shoelaceSum, zeroAreaInput, vtx, range5, List.getD]

/-- C8: the triangle count and the fan shape hold, but on the accepted
star polygon the absolute areas of the fan triangles sum to 25 while
area returns 13, far beyond any floating-point tolerance. -/
theorem claim_C8_triangulation_area_mismatch :
    is_convex star = true ∧
    (triangulation star).length = star.length - 2 ∧
    triangulation star =
      [(⟨0, 0⟩, ⟨5, 3⟩, ⟨-1, 3⟩), (⟨0, 0⟩, ⟨-1, 3⟩, ⟨4, 0⟩), (⟨0, 0⟩, ⟨4, 0⟩, ⟨2, 5⟩)] ∧
    ((triangulation star).map (fun t => area [t.1, t.2.1, t.2.2])).sum = 25 ∧
    area star = 13 := by
  have htr : triangulation star =
      [(⟨0, 0⟩, ⟨5, 3⟩, ⟨-1, 3⟩), (⟨0, 0⟩, ⟨-1, 3⟩, ⟨4, 0⟩), (⟨0, 0⟩, ⟨4, 0⟩, ⟨2, 5⟩)] := by
    norm_num [triangulation, star, vtx, List.getD, range3]
  refine ⟨?_, ?_, htr, ?_, ?_⟩
  · norm_num [is_convex, star, turnList, vtx, crossAt, firstSignLoop, range5, List.getD]
  · rw [htr]; norm_num [star]
  · rw [htr]
    norm_num [area, shoelaceSum, vtx, range3, List.getD]
  · norm_num [area, shoelaceSum, star, vtx, range5, List.getD]

/-- C9: the claim says contains_point accepts every vertex of a
successfully constructed polygon, but vertex 0 of the accepted star
polygon fails contains_point (its edge cross products have mixed
signs). -/
theorem claim_C9_vertex_not_contained :
    is_convex star = true ∧ vtx star 0 ∈ star ∧
    contains_point star (vtx star 0) = false := by
  refine ⟨?_, ?_, ?_⟩
  · norm_num [is_convex, star, turnList, vtx, crossAt, firstSignLoop, range5, List.getD]
  · simp [star, vtx, List.getD]
  · norm_num [contains_point, star, edgeCrossList, edgeCross, vtx, signLoop, range5,
      List.getD]

/-- C10: the claim says every successfully constructed polygon contains
itself under contains_polygon, but the accepted star polygon does not
contain its own vertex set. -/
theorem claim_C10_star_does_not_contain_itself :
    is_convex star = true ∧ contains_polygon star star = false := by
  constructor
  · norm_num [is_convex, star, turnList, vtx, crossAt, firstSignLoop, range5, List.getD]
  · norm_num [contains_polygon, contains_point, star, edgeCrossList, edgeCross, vtx,
      signLoop, range5, List.getD, List.all]

end ConvexPoly
